import Mathlib

/-!
Verification development for the RAG pipeline core of the repository:
the text segmenter (`chunkText` and its helpers, from
`backend/src/fileProcessor.ts`), the retriever (`searchSimilarDocuments`,
from `backend/src/pgClient.ts`), the context assembler and answer
synthesizer (`generateRAGAnswer`, `validateQuestion`, and the `/api/ask`
route from `backend/src/index.ts`).

Strings are modelled as `List Char` (`Str`). JavaScript whitespace (`\s`
and `String.trim`) is modelled by the ASCII whitespace characters; the
claims under study do not involve Unicode-only whitespace. The external
collaborators (embedding service, document store, language model) are
modelled as explicit parameters: per-query cosine similarities are data
carried by the corpus rows, and the language model is a function argument;
a boolean records whether the language-model call site was reached, and
call counters record how many external calls each request issues.
-/

abbrev Str := List Char

/-- ASCII whitespace, the model of JavaScript `\s` and of the characters
`String.prototype.trim` removes. -/
def isWS (c : Char) : Bool :=
  c = ' ' || c = '\t' || c = '\n' || c = '\r' || c = '\x0b' || c = '\x0c'

/-- Leading-whitespace removal (the front half of JS `trim`). -/
def trimLead (s : Str) : Str := s.dropWhile isWS

/-- Trailing-whitespace removal (the back half of JS `trim`), written
recursively: a character is kept unless everything after it trims to
nothing and it is itself whitespace. -/
def trimTrail : Str → Str
  | [] => []
  | c :: cs =>
    let r := trimTrail cs
    if r.isEmpty && isWS c then [] else c :: r

/-- JS `String.prototype.trim`. -/
def trim (s : Str) : Str := trimTrail (trimLead s)

/-- The blank-line separator `'\n\n'` used by `chunkText` to join
paragraphs and to attach overlap. -/
def nl2 : Str := ['\n', '\n']

/-- Index of the last `'\n'` inside the leading whitespace run of `s`,
if any: this is where the backtracking regex `\n\s*\n` ends its match
(`\s*` is greedy but must leave a final `'\n'`). -/
def lastNl : Str → Option Nat
  | [] => none
  | c :: cs =>
    if isWS c then
      match lastNl cs with
      | some j => some (j + 1)
      | none => if c = '\n' then some 0 else none
    else none

/-- Model of `text.split(/\n\s*\n/)` from `chunkText` line 33: fuel-indexed scan
(the fuel, initially `text.length`, only bounds the recursion; every step
consumes at least one character). `acc` holds the current piece reversed.
A separator starts at a `'\n'` and extends to the last `'\n'` of the
whitespace run that follows it. -/
def splitParasFuel : Nat → Str → Str → List Str
  | 0, acc, _ => [acc.reverse]
  | _ + 1, acc, [] => [acc.reverse]
  | fuel + 1, acc, c :: cs =>
    if c = '\n' then
      match lastNl cs with
      | some j => acc.reverse :: splitParasFuel fuel [] (cs.drop (j + 1))
      | none => splitParasFuel fuel (c :: acc) cs
    else splitParasFuel fuel (c :: acc) cs

/-- The paragraph split of `chunkText` (fileProcessor.ts line 33). -/
def splitParas (text : Str) : List Str := splitParasFuel text.length [] text

/-- Sentence-terminal punctuation of `splitIntoSentences` (line 107):
`.`, `!`, `?` and their full-width equivalents. -/
def isTerm (c : Char) : Bool :=
  c = '.' || c = '!' || c = '?' || c = '。' || c = '！' || c = '？'

/-- Model of `text.match(/[^.!?。！？]+[.!?。！？]+/g)` (line 107): all leftmost,
greedy, non-overlapping matches. A position holding a terminator cannot
start a match and is skipped; a maximal run of non-terminators not
followed by any terminator ends the scan. Fuel as in `splitParasFuel`. -/
def sentMatchesFuel : Nat → Str → List Str
  | 0, _ => []
  | _ + 1, [] => []
  | fuel + 1, c :: cs =>
    if isTerm c then sentMatchesFuel fuel cs
    else
      let nonterms := (c :: cs).takeWhile (fun x => !(isTerm x))
      let rest := (c :: cs).dropWhile (fun x => !(isTerm x))
      if rest.isEmpty then []
      else (nonterms ++ rest.takeWhile isTerm) :: sentMatchesFuel fuel (rest.dropWhile isTerm)

/-- The regex matches of `splitIntoSentences`. -/
def sentMatches (s : Str) : List Str := sentMatchesFuel s.length s

/-- Model of `splitIntoSentences` (fileProcessor.ts lines 105-119): the regex
matches, then — when `sentences.join('').length < text.length` — the
trimmed tail `text.substring(matchedLength)` is appended if non-empty;
finally every sentence is trimmed and empties are dropped. -/
def splitIntoSentences (text : Str) : List Str :=
  let sentences := sentMatches text
  let matchedLength := (sentences.map List.length).sum
  let withRem :=
    if matchedLength < text.length then
      let remaining := trim (text.drop matchedLength)
      if remaining.isEmpty then sentences else sentences ++ [remaining]
    else sentences
  (withRem.map trim).filter (fun s => !(s.isEmpty))

/-- The inner sentence-packing loop of `chunkText` (lines 56-68). State is
(`chunks` so far, `sentenceChunk`); `(sentenceChunk + ' ' + sentence)` is
measured against `chunkSize`; on overflow the non-empty trimmed
`sentenceChunk` is flushed and the sentence starts the next buffer. -/
def sentLoop (chunkSize : Nat) : List Str → List Str × Str → List Str × Str
  | [], st => st
  | s :: rest, (chunks, sc) =>
    if (sc ++ ' ' :: s).length ≤ chunkSize then
      sentLoop chunkSize rest (chunks, if sc.isEmpty then s else sc ++ ' ' :: s)
    else
      sentLoop chunkSize rest
        ((if (trim sc).isEmpty then chunks else chunks ++ [trim sc]), s)

/-- The paragraph loop of `chunkText` (lines 40-80). State is (`chunks`,
`currentChunk`). A paragraph that fits joins the buffer with `'\n\n'`;
otherwise the buffer is flushed, and a paragraph longer than `chunkSize`
is split into sentences, whose residual buffer (trimmed) seeds the next
`currentChunk`. -/
def paraLoop (chunkSize : Nat) : List Str → List Str × Str → List Str × Str
  | [], st => st
  | p :: rest, (chunks, cur) =>
    let tp := trim p
    if (cur ++ nl2 ++ tp).length ≤ chunkSize then
      paraLoop chunkSize rest (chunks, if cur.isEmpty then tp else cur ++ nl2 ++ tp)
    else
      let chunks1 := if (trim cur).isEmpty then chunks else chunks ++ [trim cur]
      if chunkSize < tp.length then
        let st2 := sentLoop chunkSize (splitIntoSentences tp) (chunks1, [])
        paraLoop chunkSize rest (st2.1, trim st2.2)
      else
        paraLoop chunkSize rest (chunks1, tp)

/-- The paragraphs `chunkText` iterates over: the split pieces that are
non-empty after trimming (line 33). -/
def rawParagraphs (text : Str) : List Str :=
  (splitParas text).filter (fun p => !((trim p).isEmpty))

/-- The part of `chunkText` before the overlap post-pass (lines 27-86): the guard for
empty/whitespace-only text, the paragraph loop, and the final flush of a
non-empty `currentChunk`. These are the pre-overlap chunks. -/
def chunkCore (text : Str) (chunkSize : Nat) : List Str :=
  if (trim text).isEmpty then []
  else
    let st := paraLoop chunkSize (rawParagraphs text) ([], [])
    if (trim st.2).isEmpty then st.1 else st.1 ++ [trim st.2]

/-- Model of `prevChunk.substring(Math.max(0, prevChunk.length - overlapSize))`
(line 133): the last `min n s.length` characters of `s`. -/
def lastN (n : Nat) (s : Str) : Str := s.drop (s.length - n)

/-- Index-carrying map, used to model the indexed `for` loop of
`addOverlapToChunks` and the indexed `map` of the context assembly. -/
def mapWithIndex {α β : Type} (f : Nat → α → β) : Nat → List α → List β
  | _, [] => []
  | i, c :: cs => f i c :: mapWithIndex f (i + 1) cs

/-- Model of `addOverlapToChunks` (fileProcessor.ts lines 124-141): every chunk
after index 0 is prefixed with the trailing `overlapSize` characters of
`chunks[i - 1]` — an element of the original, pre-overlap array — joined
by `'\n\n'`. -/
def addOverlapToChunks (chunks : List Str) (overlapSize : Nat) : List Str :=
  mapWithIndex
    (fun i c =>
      if i = 0 then c
      else lastN overlapSize (chunks.getD (i - 1) []) ++ nl2 ++ c)
    0 chunks

/-- Model of `chunkText` (fileProcessor.ts lines 23-100; the source defaults are
`chunkSize = 1000`, `overlapSize = 100`): pre-overlap chunks, then the
overlap post-pass when `overlapSize > 0 && chunks.length > 1`, else a
filter dropping empty chunks. -/
def chunkText (text : Str) (chunkSize : Nat) (overlapSize : Nat) : List Str :=
  let chunks := chunkCore text chunkSize
  if 0 < overlapSize ∧ 1 < chunks.length then addOverlapToChunks chunks overlapSize
  else chunks.filter (fun c => !((trim c).isEmpty))

/-- The sequence of trimmed paragraphs of a text, as the spec's chunking
properties refer to it. -/
def paragraphsOf (text : Str) : List Str := (rawParagraphs text).map trim

/-- All whitespace removed: used to compare character content modulo the
separators the chunker inserts (both of its joins, `'\n\n'` and `' '`,
are whitespace). -/
def removeWS (s : Str) : Str := s.filter (fun c => !(isWS c))

/-- The join operation `currentChunk ? currentChunk + '\n\n' + p : p`
of `chunkText` line 45, as a binary operation; `[]` is its identity. -/
def glue (a b : Str) : Str :=
  if a.isEmpty then b else if b.isEmpty then a else a ++ nl2 ++ b

/-- Left fold of `glue`: joining a list of pieces with the blank-line
separator, empty pieces disappearing. -/
def glueAll (l : List Str) : Str := l.foldl glue []

/-- A row of the `documents` table as one similarity query sees it: the
store-assigned id, the stored chunk text, and `1 - (embedding <=> q)`,
the cosine similarity the query's SQL computes for this row (the
embedding service and the stored vectors are abstracted into this
per-query score; every row the application inserts carries a vector). -/
structure DocRow where
  id : Nat
  content : Str
  similarity : Rat
deriving DecidableEq

/-- One retrieval result as `searchSimilarDocuments` returns it:
`{ id: row.id.toString(), score: similarity, text: content }`. -/
structure SearchResult where
  id : Str
  score : Rat
  text : Str
deriving DecidableEq

/-- Decimal rendering of a natural number (JS `id.toString()` and the
template interpolation of numbers). -/
def natToStr (n : Nat) : Str := Nat.toDigits 10 n

/-- The row-to-result mapping of `searchSimilarDocuments` lines 376-387. -/
def toResult (r : DocRow) : SearchResult :=
  { id := natToStr r.id, score := r.similarity, text := r.content }

/-- Insertion step for sorting rows by similarity descending (`ORDER BY
embedding <=> $1`, i.e. ascending cosine distance). -/
def insertBySim (r : DocRow) : List DocRow → List DocRow
  | [] => [r]
  | x :: xs => if x.similarity < r.similarity then r :: x :: xs else x :: insertBySim r xs

/-- Model of `ORDER BY embedding <=> $1`: rows sorted by similarity descending. -/
def sortBySimDesc (l : List DocRow) : List DocRow := l.foldr insertBySim []

/-- The first SQL query of `searchSimilarDocuments` (pgClient.ts lines
322-340): `WHERE 1 - (embedding <=> $1) > $2 ORDER BY embedding <=> $1
LIMIT $3`. -/
def thresholdedSearch (corpus : List DocRow) (limit : Nat) (threshold : Rat) : List DocRow :=
  (sortBySimDesc (corpus.filter (fun r => threshold < r.similarity))).take limit

/-- Model of `searchSimilarDocuments` (pgClient.ts lines 305-395): the thresholded
search, and — when it returns zero rows — the unthresholded retry over the
same corpus, ordered by similarity descending, capped at `limit`. -/
def searchSimilarDocuments (corpus : List DocRow) (limit : Nat) (threshold : Rat) :
    List SearchResult :=
  let rows := thresholdedSearch corpus limit threshold
  if rows.isEmpty then ((sortBySimDesc corpus).take limit).map toResult
  else rows.map toResult

/-- What one `openai.chat.completions.create` call yields, as the
synthesizer reads it: `response.choices[0].message.content` (absent or
possibly empty) and `response.usage?.total_tokens`. -/
structure LLMResponse where
  content : Option Str
  totalTokens : Option Nat

/-- One entry of `RAGResponse.sources` (pgClient.ts lines 726-733). -/
structure RAGSource where
  id : Str
  score : Rat
  text : Str
  chunk_preview : Str
deriving DecidableEq

/-- The `RAGResponse` interface (pgClient.ts lines 631-641);
`responseTime` is elapsed wall time in milliseconds. -/
structure RAGResponse where
  answer : Str
  sources : List RAGSource
  responseTime : Nat
  tokensUsed : Option Nat
deriving DecidableEq

/-- JS `Number.prototype.toFixed(1)`: the nearest multiple of 1/10
(ties toward the larger), rendered with one digit after the point. -/
def fmtFixed1 (x : Rat) : Str :=
  let n : Int := Rat.floor (10 * x + 1 / 2)
  if n < 0 then
    '-' :: (natToStr ((-n).toNat / 10) ++ '.' :: natToStr ((-n).toNat % 10))
  else natToStr (n.toNat / 10) ++ '.' :: natToStr (n.toNat % 10)

/-- The literal pieces of the context block template
`[소스N] (관련도: P%)\ntext` (pgClient.ts line 683). -/
def srcOpen : Str := "[소스".data

/-- Between the ordinal and the percentage in a context block. -/
def srcMid : Str := "] (관련도: ".data

/-- After the percentage, before the chunk text, in a context block. -/
def srcClose : Str := "%)\n".data

/-- The block delimiter `'\n\n---\n\n'` of the context join (line 685). -/
def blockDelim : Str := "\n\n---\n\n".data

/-- The truncation marker `'...'`. -/
def dots : Str := "...".data

/-- One context block (pgClient.ts lines 678-684): the dead `preview`
local is computed and discarded exactly as in the source; the block uses
the full `doc.text`. -/
def contextBlock (index : Nat) (doc : SearchResult) : Str :=
  let _preview := if 100 < doc.text.length then doc.text.take 100 ++ dots else doc.text
  srcOpen ++ natToStr (index + 1) ++ srcMid ++ fmtFixed1 (doc.score * 100) ++ srcClose ++ doc.text

/-- The context assembly of `generateRAGAnswer` (lines 677-685):
`searchResults.map(blocks).join('\n\n---\n\n')`. -/
def assembleContext (results : List SearchResult) : Str :=
  List.intercalate blockDelim (mapWithIndex contextBlock 0 results)

/-- The system prompt of `generateRAGAnswer` (lines 689-698). -/
def systemPrompt : Str :=
  "당신은 제공된 정보에 기반하여 답변하는 전문 어시스턴트입니다.\n\n다음 규칙에 따라 답변하세요:\n1. 제공된 정보를 우선적으로 사용\n2. 제공된 정보에 부족한 경우에는 지식을 보완적으로 사용하여 답변을 충실히 하십시오\n3. 정보의 출처를 명확히하십시오 : \n- 제공된 정보로부터의 경우는 '소스 X에 의하면...'라고 명기 \n- 당신의 지식으로부터의 경우는 '일반적으로...'나 '알고 있는 곳에서는...'라고 명기\n4. 추측이나 추측은 피해, 사실에 근거해 회답해 주세요\n5. 답변은 이해하기 쉽고 구조화하여 제공하십시오.".data

/-- The user prompt of `generateRAGAnswer` (lines 700-709): the assembled
context, then the verbatim question. -/
def userPromptOf (context question : Str) : Str :=
  "다음 정보를 참고하여 질문에 답변하세요.\n필요한 경우 당신의 지식을 활용하여 답변을 완벽하게 하세요.\n\n[참고 정보]\n".data
    ++ context ++ "\n\n[질문]\n".data ++ question ++ "\n\n[답변]".data

/-- The fixed "no relevant information found" answer (line 669). -/
def noInfoAnswer : Str :=
  "죄송합니다. 관련 정보를 찾을 수 없습니다. 질문을 변경하여 다시 시도해주세요.".data

/-- The fixed fallback answer when the model returns no content
(line 722). -/
def errorAnswer : Str := "에러가 발생했습니다".data

/-- JS `a || b` on an optional string: `b` when `a` is absent or empty
(the empty string is falsy). -/
def jsOrElse (o : Option Str) (dflt : Str) : Str :=
  match o with
  | some s => if s.isEmpty then dflt else s
  | none => dflt

/-- One `sources` entry (pgClient.ts lines 726-733): the preview caps the
chunk text at 150 characters, appending `'...'` when cut. -/
def mkSource (d : SearchResult) : RAGSource :=
  { id := d.id, score := d.score, text := d.text,
    chunk_preview := if 150 < d.text.length then d.text.take 150 ++ dots else d.text }

/-- Model of `generateRAGAnswer` (pgClient.ts lines 649-754) given the retrieval
results it awaited: zero results short-circuit to the fixed answer with
empty sources; otherwise the context is assembled, the language model
`llm` is applied to (system prompt, user prompt), and the response is
packaged. `elapsed` stands for `Date.now() - startTime` at return; the
boolean is `true` exactly when the language-model call site was reached. -/
def generateRAGAnswer (question : Str) (searchResults : List SearchResult)
    (llm : Str → Str → LLMResponse) (elapsed : Nat) : RAGResponse × Bool :=
  if searchResults.isEmpty then
    ({ answer := noInfoAnswer, sources := [], responseTime := elapsed, tokensUsed := none },
      false)
  else
    let context := assembleContext searchResults
    let response := llm systemPrompt (userPromptOf context question)
    let answer := jsOrElse response.content errorAnswer
    let sources := searchResults.map mkSource
    ({ answer := answer, sources := sources, responseTime := elapsed,
       tokensUsed := response.totalTokens }, true)

/-- The `{ isValid, message? }` result of `validateQuestion`. -/
structure ValidationResult where
  isValid : Bool
  message : Option Str
deriving DecidableEq

/-- Model of `validateQuestion` (pgClient.ts lines 761-775): empty after trim,
trimmed length under 5, raw length over 1000, in that order. -/
def validateQuestion (question : Str) : ValidationResult :=
  if (trim question).isEmpty then
    { isValid := false, message := some "질문이 입력되지 않았습니다".data }
  else if (trim question).length < 5 then
    { isValid := false, message := some "질문이 너무 짧습니다 (5자 이상 입력해주세요)".data }
  else if 1000 < question.length then
    { isValid := false, message := some "질문이 너무 깁니다 (1000자 이내로 입력해주세요)".data }
  else { isValid := true, message := none }

/-- External calls one request issues: embedding-service calls, document
store queries, language-model calls. -/
structure ServiceCalls where
  embed : Nat
  store : Nat
  llm : Nat
deriving DecidableEq

/-- The `/api/ask` route (index.ts lines 170-193) end to end: validate
first and answer 400 with the validation message before anything else;
otherwise run `generateRAGAnswer(question)` with its defaults
(`maxSources = 3`, threshold `0.3`), whose retrieval embeds the question
once and queries the store once, or twice when the thresholded search is
empty. The `ServiceCalls` component counts the external calls made. -/
def askPipeline (question : Str) (corpus : List DocRow)
    (llm : Str → Str → LLMResponse) (elapsed : Nat) :
    Except Str RAGResponse × ServiceCalls :=
  let v := validateQuestion question
  if v.isValid then
    let results := searchSimilarDocuments corpus 3 (3 / 10)
    let storeCalls : Nat := if (thresholdedSearch corpus 3 (3 / 10)).isEmpty then 2 else 1
    let out := generateRAGAnswer question results llm elapsed
    (Except.ok out.1,
      { embed := 1, store := storeCalls, llm := if out.2 then 1 else 0 })
  else (Except.error (v.message.getD []), { embed := 0, store := 0, llm := 0 })

/-- Spec's words for the context assembler (§4.3): for each result in
order, a labeled block — 1-based ordinal source number, similarity score
as a percentage with one decimal place, the full chunk text — blocks
separated by the fixed delimiter line. Named `...Spec` to be compared
with the source translation `assembleContext`. -/
def assembleContextSpec (results : List SearchResult) : Str :=
  List.intercalate blockDelim
    (mapWithIndex
      (fun i r =>
        srcOpen ++ natToStr (i + 1) ++ srcMid ++ fmtFixed1 (r.score * 100) ++ srcClose ++ r.text)
      0 results)

/-- Spec's words for the packaged answer text (§4.4 step 6): the model's
text output, or the fixed fallback string when the service returns no
content. -/
def specAnswer (content : Option Str) : Str :=
  match content with
  | none => errorAnswer
  | some s => if s = [] then errorAnswer else s

/-- Spec's words for one `sources` entry (§4.4 step 6): mirrors the
retrieval result; the preview equals the chunk text when it is at most
150 characters, otherwise the first 150 characters followed by the
truncation marker. -/
def specSource (d : SearchResult) : RAGSource :=
  { id := d.id, score := d.score, text := d.text,
    chunk_preview := if d.text.length ≤ 150 then d.text else d.text.take 150 ++ dots }

theorem isEmpty_eq_nil {α : Type} (l : List α) : l.isEmpty = true ↔ l = [] := by
  cases l <;> simp

theorem isEmpty_eq_false_ne_nil {α : Type} (l : List α) : l.isEmpty = false ↔ l ≠ [] := by
  cases l <;> simp

theorem dropWhile_length_le {α : Type} (p : α → Bool) :
    ∀ l : List α, (l.dropWhile p).length ≤ l.length := by
  intro l
  induction l with
  | nil => simp
  | cons c cs ih =>
    by_cases h : p c = true
    · simp only [List.dropWhile_cons, h, if_true]
      exact Nat.le_succ_of_le ih
    · simp [List.dropWhile_cons, h]

theorem dropWhile_cons_self {α : Type} (p : α → Bool) (c : α) (cs : List α)
    (h : List.dropWhile p (c :: cs) = c :: cs) : p c = false := by
  by_cases hp : p c = true
  · exfalso
    rw [List.dropWhile_cons, if_pos hp] at h
    have hlen := congrArg List.length h
    have := dropWhile_length_le p cs
    simp at hlen
    omega
  · simpa using hp

theorem dropWhile_of_head_false {α : Type} (p : α → Bool) (c : α) (cs : List α)
    (h : p c = false) : List.dropWhile p (c :: cs) = c :: cs := by
  simp [List.dropWhile_cons, h]

theorem dropWhile_eq_self_of_length {α : Type} (p : α → Bool) :
    ∀ l : List α, (List.dropWhile p l).length = l.length → List.dropWhile p l = l := by
  intro l
  induction l with
  | nil => simp
  | cons c cs _ =>
    intro hlen
    by_cases h : p c = true
    · exfalso
      rw [List.dropWhile_cons, if_pos h] at hlen
      have := dropWhile_length_le p cs
      simp at hlen
      omega
    · simp [List.dropWhile_cons, h]

theorem dropWhile_dropWhile {α : Type} (p : α → Bool) :
    ∀ l : List α, List.dropWhile p (List.dropWhile p l) = List.dropWhile p l := by
  intro l
  induction l with
  | nil => simp
  | cons c cs ih =>
    by_cases h : p c = true
    · simpa [List.dropWhile_cons, h] using ih
    · simp [List.dropWhile_cons, h]

theorem trimLead_trimLead (s : Str) : trimLead (trimLead s) = trimLead s :=
  dropWhile_dropWhile isWS s

theorem trimTrail_length_le : ∀ s : Str, (trimTrail s).length ≤ s.length := by
  intro s
  induction s with
  | nil => simp [trimTrail]
  | cons c cs ih =>
    simp only [trimTrail]
    split
    · simp
    · simpa using ih

theorem trimTrail_cons (c : Char) (cs : Str) :
    trimTrail (c :: cs) = if (trimTrail cs).isEmpty && isWS c then [] else c :: trimTrail cs :=
  rfl

theorem trimTrail_trimTrail : ∀ s : Str, trimTrail (trimTrail s) = trimTrail s := by
  intro s
  induction s with
  | nil => rfl
  | cons c cs ih =>
    rw [trimTrail_cons]
    by_cases h : ((trimTrail cs).isEmpty && isWS c) = true
    · rw [if_pos h]
      rfl
    · rw [if_neg h, trimTrail_cons, ih, if_neg h]

theorem trimLead_of_trimLead_fixed :
    ∀ t : Str, trimLead t = t → trimLead (trimTrail t) = trimTrail t := by
  intro t ht
  cases t with
  | nil => simp [trimTrail, trimLead]
  | cons c cs =>
    have hc : isWS c = false := dropWhile_cons_self isWS c cs ht
    rw [trimTrail_cons]
    by_cases h : ((trimTrail cs).isEmpty && isWS c) = true
    · rw [if_pos h]
      rfl
    · rw [if_neg h]
      exact dropWhile_of_head_false isWS c _ hc

theorem trim_idem (s : Str) : trim (trim s) = trim s := by
  unfold trim
  rw [trimLead_of_trimLead_fixed (trimLead s) (trimLead_trimLead s), trimTrail_trimTrail]

theorem trim_length_le (s : Str) : (trim s).length ≤ s.length := by
  unfold trim trimLead
  exact le_trans (trimTrail_length_le _) (dropWhile_length_le isWS s)

theorem trimTrail_nil_allWS : ∀ s : Str, trimTrail s = [] → ∀ c ∈ s, isWS c = true := by
  intro s
  induction s with
  | nil => simp
  | cons c cs ih =>
    intro h x hx
    rw [trimTrail_cons] at h
    by_cases hcond : ((trimTrail cs).isEmpty && isWS c) = true
    · rcases Bool.and_eq_true _ _ |>.mp hcond with ⟨h1, h2⟩
      rcases List.mem_cons.mp hx with rfl | hmem
      · exact h2
      · exact ih ((isEmpty_eq_nil _).mp h1) x hmem
    · simp [hcond] at h

theorem dropWhile_nil_all {α : Type} (p : α → Bool) :
    ∀ l : List α, List.dropWhile p l = [] → ∀ c ∈ l, p c = true := by
  intro l
  induction l with
  | nil => simp
  | cons c cs ih =>
    intro h x hx
    by_cases hp : p c = true
    · rcases List.mem_cons.mp hx with rfl | hmem
      · exact hp
      · rw [List.dropWhile_cons, if_pos hp] at h
        exact ih h x hmem
    · rw [List.dropWhile_cons, if_neg hp] at h
      exact absurd h (by simp)

theorem mem_takeWhile_sat {α : Type} (p : α → Bool) :
    ∀ l : List α, ∀ c ∈ List.takeWhile p l, p c = true := by
  intro l
  induction l with
  | nil => simp
  | cons c cs ih =>
    intro x hx
    by_cases hp : p c = true
    · rw [List.takeWhile_cons, if_pos hp] at hx
      rcases List.mem_cons.mp hx with rfl | hmem
      · exact hp
      · exact ih x hmem
    · rw [List.takeWhile_cons, if_neg hp] at hx
      exact absurd hx (by simp)

theorem trim_nil_allWS (s : Str) (h : trim s = []) : ∀ c ∈ s, isWS c = true := by
  intro c hc
  have hsplit : List.takeWhile isWS s ++ List.dropWhile isWS s = s :=
    List.takeWhile_append_dropWhile _ _
  rw [← hsplit] at hc
  rcases List.mem_append.mp hc with hmem | hmem
  · exact mem_takeWhile_sat isWS s c hmem
  · exact trimTrail_nil_allWS (trimLead s) h c hmem

theorem dropWhile_nil_of_all {α : Type} (p : α → Bool) :
    ∀ l : List α, (∀ c ∈ l, p c = true) → List.dropWhile p l = [] := by
  intro l
  induction l with
  | nil => simp
  | cons c cs ih =>
    intro h
    rw [List.dropWhile_cons, if_pos (h c (by simp))]
    exact ih fun x hx => h x (List.mem_cons_of_mem _ hx)

theorem allWS_trim_nil (s : Str) (h : ∀ c ∈ s, isWS c = true) : trim s = [] := by
  unfold trim trimLead
  rw [dropWhile_nil_of_all isWS s h]
  rfl

theorem trimLead_fixed_of_trim_fixed (s : Str) (h : trim s = s) : trimLead s = s := by
  have h1 : (trim s).length ≤ (trimLead s).length := trimTrail_length_le _
  have h2 : (trimLead s).length ≤ s.length := dropWhile_length_le isWS s
  have : (trimLead s).length = s.length := by rw [h] at h1; omega
  exact dropWhile_eq_self_of_length isWS s this

theorem trimTrail_fixed_of_trim_fixed (s : Str) (h : trim s = s) : trimTrail s = s := by
  have := trimLead_fixed_of_trim_fixed s h
  unfold trim at h
  rwa [this] at h

theorem trimTrail_append_fixed : ∀ (x b : Str), b ≠ [] → trimTrail b = b →
    trimTrail (x ++ b) = x ++ b := by
  intro x
  induction x with
  | nil => intro b _ hb; simpa using hb
  | cons c x ih =>
    intro b hbne hb
    have hx : trimTrail (x ++ b) = x ++ b := ih b hbne hb
    rw [List.cons_append, trimTrail_cons, hx]
    have : (x ++ b).isEmpty = false := by
      rw [isEmpty_eq_false_ne_nil]
      simp [hbne]
    rw [this]
    simp

theorem trim_append_fixed (a m b : Str) (ha : trim a = a) (hane : a ≠ [])
    (hb : trim b = b) (hbne : b ≠ []) : trim (a ++ m ++ b) = a ++ m ++ b := by
  obtain ⟨c, a', rfl⟩ : ∃ c a', a = c :: a' := by
    cases a with
    | nil => exact absurd rfl hane
    | cons c a' => exact ⟨c, a', rfl⟩
  have hc : isWS c = false :=
    dropWhile_cons_self isWS c a' (trimLead_fixed_of_trim_fixed _ ha)
  unfold trim trimLead
  have key := trimTrail_append_fixed (c :: (a' ++ m)) b hbne
    (trimTrail_fixed_of_trim_fixed b hb)
  simp only [List.cons_append, List.append_assoc] at key ⊢
  rw [dropWhile_of_head_false isWS c _ hc]
  exact key

theorem sents_trim_fixed (t : Str) :
    ∀ s ∈ splitIntoSentences t, trim s = s ∧ s ≠ [] := by
  intro s hs
  unfold splitIntoSentences at hs
  rcases List.mem_filter.mp hs with ⟨hmem, hpred⟩
  rcases List.mem_map.mp hmem with ⟨x, _, rfl⟩
  refine ⟨trim_idem x, ?_⟩
  simpa [isEmpty_eq_false_ne_nil] using hpred

theorem sentLoop_cons (cs : Nat) (s : Str) (rest : List Str) (chunks : List Str) (sc : Str) :
    sentLoop cs (s :: rest) (chunks, sc) =
      if (sc ++ ' ' :: s).length ≤ cs then
        sentLoop cs rest (chunks, if sc.isEmpty then s else sc ++ ' ' :: s)
      else
        sentLoop cs rest ((if (trim sc).isEmpty then chunks else chunks ++ [trim sc]), s) :=
  rfl

theorem sentLoop_inv (cs : Nat) (P : Str → Prop) :
    ∀ (ss : List Str) (chunks : List Str) (sc : Str),
      (∀ s ∈ ss, P s ∧ trim s = s) →
      (sc = [] ∨ sc.length ≤ cs ∨ (P sc ∧ trim sc = sc)) →
      (∀ c ∈ (sentLoop cs ss (chunks, sc)).1,
          c ∈ chunks ∨ c.length ≤ cs ∨ (cs < c.length ∧ P c)) ∧
      ((sentLoop cs ss (chunks, sc)).2 = [] ∨
        (sentLoop cs ss (chunks, sc)).2.length ≤ cs ∨
        (P (sentLoop cs ss (chunks, sc)).2 ∧
          trim (sentLoop cs ss (chunks, sc)).2 = (sentLoop cs ss (chunks, sc)).2)) := by
  intro ss
  induction ss with
  | nil =>
    intro chunks sc _ hsc
    exact ⟨fun c hc => Or.inl hc, hsc⟩
  | cons s rest ih =>
    intro chunks sc hss hsc
    have hs : P s ∧ trim s = s := hss s (by simp)
    have hrest : ∀ x ∈ rest, P x ∧ trim x = x := fun x hx => hss x (by simp [hx])
    by_cases hfit : (sc ++ ' ' :: s).length ≤ cs
    · rw [sentLoop_cons, if_pos hfit]
      apply ih chunks _ hrest
      right; left
      by_cases hemp : sc.isEmpty
      · simp only [hemp, if_true]
        simp only [List.length_append, List.length_cons] at hfit
        omega
      · simpa [hemp] using hfit
    · rw [sentLoop_cons, if_neg hfit]
      have hout := ih (if (trim sc).isEmpty then chunks else chunks ++ [trim sc]) s hrest
        (Or.inr (Or.inr hs))
      refine ⟨fun c hc => ?_, hout.2⟩
      rcases hout.1 c hc with hmem | hgood | hgood
      · by_cases hemp : (trim sc).isEmpty
        · rw [if_pos hemp] at hmem
          exact Or.inl hmem
        · rw [if_neg hemp] at hmem
          rcases List.mem_append.mp hmem with hmem' | hmem'
          · exact Or.inl hmem'
          · have hceq : c = trim sc := by simpa using hmem'
            subst hceq
            rcases hsc with rfl | hlen | ⟨hP, hfix⟩
            · exact absurd rfl hemp
            · exact Or.inr (Or.inl (le_trans (trim_length_le sc) hlen))
            · rw [hfix]
              rcases Nat.lt_or_ge cs sc.length with hlt | hge
              · exact Or.inr (Or.inr ⟨hlt, hP⟩)
              · exact Or.inr (Or.inl hge)
      · exact Or.inr (Or.inl hgood)
      · exact Or.inr (Or.inr hgood)

theorem paraLoop_cons (cs : Nat) (p : Str) (rest : List Str) (chunks : List Str) (cur : Str) :
    paraLoop cs (p :: rest) (chunks, cur) =
      if (cur ++ nl2 ++ trim p).length ≤ cs then
        paraLoop cs rest (chunks, if cur.isEmpty then trim p else cur ++ nl2 ++ trim p)
      else
        if cs < (trim p).length then
          paraLoop cs rest
            ((sentLoop cs (splitIntoSentences (trim p))
                ((if (trim cur).isEmpty then chunks else chunks ++ [trim cur]), [])).1,
              trim (sentLoop cs (splitIntoSentences (trim p))
                ((if (trim cur).isEmpty then chunks else chunks ++ [trim cur]), [])).2)
        else
          paraLoop cs rest
            ((if (trim cur).isEmpty then chunks else chunks ++ [trim cur]), trim p) :=
  rfl

theorem push_flush_good (cs : Nat) (G : Str → Prop) (chunks : List Str) (cur : Str)
    (hcur : cur = [] ∨ cur.length ≤ cs ∨ (G cur ∧ trim cur = cur)) :
    ∀ c ∈ (if (trim cur).isEmpty then chunks else chunks ++ [trim cur]),
      c ∈ chunks ∨ c.length ≤ cs ∨ (cs < c.length ∧ G c) := by
  intro c hc
  by_cases hemp : (trim cur).isEmpty
  · rw [if_pos hemp] at hc
    exact Or.inl hc
  · rw [if_neg hemp] at hc
    rcases List.mem_append.mp hc with hmem | hmem
    · exact Or.inl hmem
    · have hceq : c = trim cur := by simpa using hmem
      subst hceq
      rcases hcur with rfl | hlen | ⟨hPc, hfix⟩
      · exact absurd rfl hemp
      · exact Or.inr (Or.inl (le_trans (trim_length_le cur) hlen))
      · rw [hfix]
        rcases Nat.lt_or_ge cs cur.length with hlt | hge
        · exact Or.inr (Or.inr ⟨hlt, hPc⟩)
        · exact Or.inr (Or.inl hge)

theorem paraLoop_inv (cs : Nat) (U : Str → Prop) :
    ∀ (paras : List Str) (chunks : List Str) (cur : Str),
      (∀ p ∈ paras, U (trim p)) →
      (cur = [] ∨ cur.length ≤ cs ∨
        ((∃ tp, U tp ∧ cur ∈ splitIntoSentences tp) ∧ trim cur = cur)) →
      (∀ c ∈ (paraLoop cs paras (chunks, cur)).1,
          c ∈ chunks ∨ c.length ≤ cs ∨
            (cs < c.length ∧ ∃ tp, U tp ∧ c ∈ splitIntoSentences tp)) ∧
      ((paraLoop cs paras (chunks, cur)).2 = [] ∨
        (paraLoop cs paras (chunks, cur)).2.length ≤ cs ∨
        ((∃ tp, U tp ∧ (paraLoop cs paras (chunks, cur)).2 ∈ splitIntoSentences tp) ∧
          trim (paraLoop cs paras (chunks, cur)).2 = (paraLoop cs paras (chunks, cur)).2)) := by
  intro paras
  induction paras with
  | nil =>
    intro chunks cur _ hcur
    exact ⟨fun c hc => Or.inl hc, hcur⟩
  | cons p rest ih =>
    intro chunks cur hU hcur
    have hUp : U (trim p) := hU p (by simp)
    have hUrest : ∀ x ∈ rest, U (trim x) := fun x hx => hU x (by simp [hx])
    have hpush := push_flush_good cs (fun x => ∃ tp, U tp ∧ x ∈ splitIntoSentences tp)
      chunks cur hcur
    by_cases hfit : (cur ++ nl2 ++ trim p).length ≤ cs
    · rw [paraLoop_cons, if_pos hfit]
      apply ih chunks _ hUrest
      right; left
      by_cases hemp : cur.isEmpty
      · rw [if_pos hemp]
        have : cur = [] := (isEmpty_eq_nil _).mp hemp
        subst this
        simp only [List.nil_append, List.length_append] at hfit
        simp [nl2] at hfit
        omega
      · rw [if_neg hemp]
        exact hfit
    · rw [paraLoop_cons, if_neg hfit]
      by_cases hbig : cs < (trim p).length
      · rw [if_pos hbig]
        have hsl := sentLoop_inv cs (fun x => x ∈ splitIntoSentences (trim p))
          (splitIntoSentences (trim p))
          (if (trim cur).isEmpty then chunks else chunks ++ [trim cur]) []
          (fun s hs => ⟨hs, (sents_trim_fixed _ s hs).1⟩) (Or.inl rfl)
        generalize hst2 : sentLoop cs (splitIntoSentences (trim p))
          ((if (trim cur).isEmpty then chunks else chunks ++ [trim cur]), []) = st2 at hsl ⊢
        have hscinv : trim st2.2 = [] ∨ (trim st2.2).length ≤ cs ∨
            ((∃ tp, U tp ∧ trim st2.2 ∈ splitIntoSentences tp) ∧
              trim (trim st2.2) = trim st2.2) := by
          rcases hsl.2 with hnil | hlen | ⟨hmem, hfix⟩
          · rw [hnil]
            exact Or.inl rfl
          · exact Or.inr (Or.inl (le_trans (trim_length_le _) hlen))
          · rw [hfix]
            exact Or.inr (Or.inr ⟨⟨trim p, hUp, hmem⟩, by rw [hfix]⟩)
        have hout := ih st2.1 (trim st2.2) hUrest hscinv
        refine ⟨fun c hc => ?_, hout.2⟩
        rcases hout.1 c hc with hmem | hgood | hgood
        · rcases hsl.1 c hmem with hmem2 | hgood2 | hgood2
          · exact hpush c hmem2
          · exact Or.inr (Or.inl hgood2)
          · exact Or.inr (Or.inr ⟨hgood2.1, trim p, hUp, hgood2.2⟩)
        · exact Or.inr (Or.inl hgood)
        · exact Or.inr (Or.inr hgood)
      · rw [if_neg hbig]
        have hout := ih (if (trim cur).isEmpty then chunks else chunks ++ [trim cur])
          (trim p) hUrest (Or.inr (Or.inl (by omega)))
        refine ⟨fun c hc => ?_, hout.2⟩
        rcases hout.1 c hc with hmem | hgood | hgood
        · exact hpush c hmem
        · exact Or.inr (Or.inl hgood)
        · exact Or.inr (Or.inr hgood)

theorem chunkCore_eq (text : Str) (cs : Nat) :
    chunkCore text cs =
      if (trim text).isEmpty then []
      else
        if (trim (paraLoop cs (rawParagraphs text) ([], [])).2).isEmpty
        then (paraLoop cs (rawParagraphs text) ([], [])).1
        else (paraLoop cs (rawParagraphs text) ([], [])).1
          ++ [trim (paraLoop cs (rawParagraphs text) ([], [])).2] :=
  rfl

/-- C1: for every input text and `chunkSize > 0` (and any `overlapSize`,
which does not enter the pre-overlap chunks), every pre-overlap chunk
produced by the segmenter (`chunkCore`, the chunk list `chunkText` builds
before its overlap post-pass) has length at most `chunkSize`, except that
a chunk may exceed `chunkSize` only by being a single whole, unsplit
sentence of one of the text's trimmed paragraphs (as `splitIntoSentences`
produces it). -/
theorem c1_segmenter_chunk_bound :
    ∀ (text : Str) (chunkSize : Nat), 0 < chunkSize →
      ∀ c ∈ chunkCore text chunkSize,
        c.length ≤ chunkSize ∨
          (chunkSize < c.length ∧ ∃ p ∈ paragraphsOf text, c ∈ splitIntoSentences p) := by
  intro text cs _ c hc
  rw [chunkCore_eq] at hc
  by_cases hguard : (trim text).isEmpty
  · rw [if_pos hguard] at hc
    exact absurd hc (List.not_mem_nil c)
  · rw [if_neg hguard] at hc
    have hinv := paraLoop_inv cs (fun tp => tp ∈ paragraphsOf text)
      (rawParagraphs text) [] []
      (fun p hp => List.mem_map_of_mem trim hp) (Or.inl rfl)
    have hpush := push_flush_good cs
      (fun x => ∃ tp, tp ∈ paragraphsOf text ∧ x ∈ splitIntoSentences tp)
      (paraLoop cs (rawParagraphs text) ([], [])).1
      (paraLoop cs (rawParagraphs text) ([], [])).2 hinv.2
    rcases hpush c hc with hmem | hgood | hgood
    · rcases hinv.1 c hmem with habs | hgood2 | hgood2
      · exact absurd habs (List.not_mem_nil c)
      · exact Or.inl hgood2
      · exact Or.inr hgood2
    · exact Or.inl hgood
    · exact Or.inr hgood

/-- C1 witness: at `chunkSize = 5` the text `"abcdefg. hi."` yields the
chunk `"abcdefg."`, whose length 8 exceeds 5, and the theorem places it
whole among the sentences of a trimmed paragraph. -/
theorem c1_segmenter_chunk_bound_witness :
    0 < 5 ∧ "abcdefg.".data ∈ chunkCore "abcdefg. hi.".data 5 ∧
      (("abcdefg.".data : Str).length ≤ 5 ∨
        (5 < ("abcdefg.".data : Str).length ∧
          ∃ p ∈ paragraphsOf "abcdefg. hi.".data,
            "abcdefg.".data ∈ splitIntoSentences p)) :=
  ⟨by decide, by decide,
    c1_segmenter_chunk_bound "abcdefg. hi.".data 5 (by decide) "abcdefg.".data (by decide)⟩

/-- C9: the segmenter is a total function of its string input (it is a
Lean function, so it never fails), and for every empty or whitespace-only
input it returns the empty chunk sequence, for any `chunkSize` and
`overlapSize`. -/
theorem c9_empty_input_empty_chunks :
    ∀ (text : Str) (chunkSize overlapSize : Nat),
      (∀ c ∈ text, isWS c = true) → chunkText text chunkSize overlapSize = [] := by
  intro text cs o h
  have hcore : chunkCore text cs = [] := by
    rw [chunkCore_eq, if_pos]
    rw [allWS_trim_nil text h]
    rfl
  unfold chunkText
  rw [hcore]
  simp

/-- C9 witness: the whitespace-only text `"  \n "` yields no chunks at
`chunkSize = 3`, `overlapSize = 1`. -/
theorem c9_empty_input_empty_chunks_witness :
    (∀ c ∈ ("  \n ".data : Str), isWS c = true) ∧ chunkText "  \n ".data 3 1 = [] :=
  ⟨by decide, c9_empty_input_empty_chunks "  \n ".data 3 1 (by decide)⟩

/-- C10: `validateQuestion` accepts exactly the questions whose trimmed
text is non-empty and at least 5 characters long and whose raw text is at
most 1000 characters long — the 5-character minimum is measured on the
trimmed string, the 1000-character maximum on the raw string. -/
theorem c10_validate_question_iff :
    ∀ q : Str, (validateQuestion q).isValid = true ↔
      (trim q ≠ [] ∧ 5 ≤ (trim q).length ∧ q.length ≤ 1000) := by
  intro q
  unfold validateQuestion
  by_cases h1 : (trim q).isEmpty
  · rw [if_pos h1]
    rw [isEmpty_eq_nil] at h1
    simp [h1]
  · rw [if_neg h1]
    rw [isEmpty_eq_nil] at h1
    by_cases h2 : (trim q).length < 5
    · rw [if_pos h2]
      simp
      omega
    · rw [if_neg h2]
      by_cases h3 : 1000 < q.length
      · rw [if_pos h3]
        simp
        omega
      · rw [if_neg h3]
        simp [h1]
        omega

/-- C5: when retrieval returned zero results, `generateRAGAnswer` returns
the fixed "no relevant information found" answer with an empty sources
list and the elapsed time, and the language-model call site is never
reached (the boolean is `false`), for every question, language model and
elapsed time. -/
theorem c5_no_results_short_circuit :
    ∀ (question : Str) (llm : Str → Str → LLMResponse) (elapsed : Nat),
      generateRAGAnswer question [] llm elapsed =
        ({ answer := noInfoAnswer, sources := [], responseTime := elapsed,
           tokensUsed := none }, false) := by
  intro question llm elapsed
  rfl

/-- C7: the context assembler of `generateRAGAnswer` coincides with the
spec's description (`assembleContextSpec`): for each result in order, one
block with the 1-based ordinal, the score as a percentage with one
decimal place, and the full untruncated chunk text, blocks joined by the
fixed delimiter line; as a function of the results it is pure and
deterministic. -/
theorem c7_context_assembler_spec :
    ∀ results : List SearchResult, assembleContext results = assembleContextSpec results := by
  intro results
  rfl

theorem insertBySim_length (r : DocRow) :
    ∀ l : List DocRow, (insertBySim r l).length = l.length + 1 := by
  intro l
  induction l with
  | nil => rfl
  | cons x xs ih =>
    unfold insertBySim
    by_cases h : x.similarity < r.similarity
    · rw [if_pos h]
      rfl
    · rw [if_neg h]
      simp [ih]

theorem sortBySimDesc_length :
    ∀ l : List DocRow, (sortBySimDesc l).length = l.length := by
  intro l
  induction l with
  | nil => rfl
  | cons x xs ih =>
    show (insertBySim x (sortBySimDesc xs)).length = xs.length + 1
    rw [insertBySim_length, ih]

theorem sortBySimDesc_ne_nil (l : List DocRow) (h : l ≠ []) : sortBySimDesc l ≠ [] := by
  intro hnil
  have hlen := congrArg List.length hnil
  rw [sortBySimDesc_length] at hlen
  cases l with
  | nil => exact h rfl
  | cons a t => simp at hlen

theorem take_ne_nil_of {α : Type} (n : Nat) (l : List α) (hn : 1 ≤ n) (hl : l ≠ []) :
    l.take n ≠ [] := by
  cases l with
  | nil => exact absurd rfl hl
  | cons a t =>
    cases n with
    | zero => omega
    | succ m => simp

theorem searchSimilar_eq (corpus : List DocRow) (limit : Nat) (threshold : Rat) :
    searchSimilarDocuments corpus limit threshold =
      if (thresholdedSearch corpus limit threshold).isEmpty
      then ((sortBySimDesc corpus).take limit).map toResult
      else (thresholdedSearch corpus limit threshold).map toResult :=
  rfl

/-- C2: the retriever's two-tier policy. If the thresholded search
(`score > threshold`, similarity descending, capped at `limit`) returns
zero rows, `searchSimilarDocuments` returns the results of the second,
unthresholded search over the same corpus capped at `limit`; it returns a
non-empty sequence of at most `limit` results whenever the corpus is
non-empty, and an empty sequence exactly when the corpus has no vectors
(every row the application stores carries one). -/
theorem c2_retrieval_fallback :
    ∀ (corpus : List DocRow) (limit : Nat) (threshold : Rat),
      1 ≤ limit → 0 ≤ threshold → threshold ≤ 1 →
      (thresholdedSearch corpus limit threshold = [] →
        searchSimilarDocuments corpus limit threshold =
          ((sortBySimDesc corpus).take limit).map toResult) ∧
      (corpus ≠ [] → searchSimilarDocuments corpus limit threshold ≠ []) ∧
      (searchSimilarDocuments corpus limit threshold = [] ↔ corpus = []) ∧
      (searchSimilarDocuments corpus limit threshold).length ≤ limit := by
  intro corpus limit threshold hlim _ _
  have hfallback : thresholdedSearch corpus limit threshold = [] →
      searchSimilarDocuments corpus limit threshold =
        ((sortBySimDesc corpus).take limit).map toResult := by
    intro h
    rw [searchSimilar_eq, if_pos (by rw [h]; rfl)]
  have hnonempty : corpus ≠ [] → searchSimilarDocuments corpus limit threshold ≠ [] := by
    intro hc
    rw [searchSimilar_eq]
    by_cases hrows : (thresholdedSearch corpus limit threshold).isEmpty
    · rw [if_pos hrows]
      have h1 : sortBySimDesc corpus ≠ [] := sortBySimDesc_ne_nil corpus hc
      have h2 : (sortBySimDesc corpus).take limit ≠ [] := take_ne_nil_of limit _ hlim h1
      simpa using h2
    · rw [if_neg hrows]
      have hne : thresholdedSearch corpus limit threshold ≠ [] := by
        intro hnil
        exact hrows (by rw [hnil]; rfl)
      simpa using hne
  have hempty : searchSimilarDocuments corpus limit threshold = [] ↔ corpus = [] := by
    constructor
    · intro h
      by_contra hc
      exact hnonempty hc h
    · intro h
      subst h
      rw [searchSimilar_eq]
      simp [thresholdedSearch, sortBySimDesc]
  refine ⟨hfallback, hnonempty, hempty, ?_⟩
  rw [searchSimilar_eq]
  by_cases hrows : (thresholdedSearch corpus limit threshold).isEmpty
  · rw [if_pos hrows]
    simp [List.length_take]
  · rw [if_neg hrows]
    unfold thresholdedSearch
    simp [List.length_take]

/-- C2 witness: a one-row corpus whose similarity 0 does not exceed the
threshold 0 engages the fallback: `searchSimilarDocuments` still returns
a non-empty result. -/
theorem c2_retrieval_fallback_witness :
    1 ≤ 1 ∧ (0 : Rat) ≤ 0 ∧ (0 : Rat) ≤ 1 ∧
      ([⟨7, "doc".data, 0⟩] : List DocRow) ≠ [] ∧
      searchSimilarDocuments [⟨7, "doc".data, 0⟩] 1 0 ≠ [] :=
  ⟨by decide, le_refl 0, by norm_num,
    by simp,
    (c2_retrieval_fallback [⟨7, "doc".data, 0⟩] 1 0 (by decide) (le_refl 0)
      (by norm_num)).2.1 (by simp)⟩

theorem askPipeline_invalid (q : Str) (corpus : List DocRow)
    (llm : Str → Str → LLMResponse) (elapsed : Nat)
    (h : (validateQuestion q).isValid = false) :
    askPipeline q corpus llm elapsed =
      (Except.error ((validateQuestion q).message.getD []),
        { embed := 0, store := 0, llm := 0 }) := by
  simp only [askPipeline]
  rw [h]
  simp

/-- C6: every question whose trimmed text is under 5 characters is
rejected by validation, and the `/api/ask` pipeline returns the
validation error having made zero calls to the embedding service, the
document store and the language model. -/
theorem c6_short_question_rejected :
    ∀ (q : Str) (corpus : List DocRow) (llm : Str → Str → LLMResponse) (elapsed : Nat),
      (trim q).length < 5 →
      (validateQuestion q).isValid = false ∧
      askPipeline q corpus llm elapsed =
        (Except.error ((validateQuestion q).message.getD []),
          { embed := 0, store := 0, llm := 0 }) := by
  intro q corpus llm elapsed h
  have hv : (validateQuestion q).isValid = false := by
    unfold validateQuestion
    by_cases h1 : (trim q).isEmpty
    · rw [if_pos h1]
    · rw [if_neg h1, if_pos h]
  exact ⟨hv, askPipeline_invalid q corpus llm elapsed hv⟩

/-- C6 witness: the two-character question `"hi"` is rejected with zero
external calls. -/
theorem c6_short_question_rejected_witness :
    (trim "hi".data).length < 5 ∧
      ((validateQuestion "hi".data).isValid = false ∧
        askPipeline "hi".data [] (fun _ _ => ⟨none, none⟩) 0 =
          (Except.error ((validateQuestion "hi".data).message.getD []),
            { embed := 0, store := 0, llm := 0 })) :=
  ⟨by decide, c6_short_question_rejected "hi".data [] (fun _ _ => ⟨none, none⟩) 0 (by decide)⟩

theorem mapWithIndex_length {α β : Type} (f : Nat → α → β) :
    ∀ (l : List α) (k : Nat), (mapWithIndex f k l).length = l.length := by
  intro l
  induction l with
  | nil => intro k; rfl
  | cons a t ih =>
    intro k
    show (mapWithIndex f (k + 1) t).length + 1 = t.length + 1
    rw [ih]

theorem mapWithIndex_getD (f : Nat → Str → Str) :
    ∀ (l : List Str) (k i : Nat), i < l.length →
      (mapWithIndex f k l).getD i [] = f (k + i) (l.getD i []) := by
  intro l
  induction l with
  | nil => intro k i h; simp at h
  | cons a t ih =>
    intro k i h
    cases i with
    | zero => simp [mapWithIndex]
    | succ j =>
      show (f k a :: mapWithIndex f (k + 1) t).getD (j + 1) [] = _
      rw [List.getD_cons_succ, ih (k + 1) j (by simpa using h)]
      have harg : (a :: t).getD (j + 1) ([] : Str) = t.getD j [] := by simp
      rw [harg]
      congr 1
      omega

theorem ext_getD : ∀ (l₁ l₂ : List Str), l₁.length = l₂.length →
    (∀ i, i < l₁.length → l₁.getD i [] = l₂.getD i []) → l₁ = l₂ := by
  intro l₁
  induction l₁ with
  | nil =>
    intro l₂ hlen _
    cases l₂ with
    | nil => rfl
    | cons b t => simp at hlen
  | cons a t ih =>
    intro l₂ hlen hget
    cases l₂ with
    | nil => simp at hlen
    | cons b u =>
      have h0 : a = b := by simpa using hget 0 (by simp)
      have ht : t = u := by
        apply ih u (by simpa using hlen)
        intro i hi
        simpa using hget (i + 1) (by simpa using hi)
      rw [h0, ht]

theorem zip_map_getD (f : Str × Str → Str) :
    ∀ (l₁ l₂ : List Str) (i : Nat), i < l₁.length → i < l₂.length →
      ((l₁.zip l₂).map f).getD i [] = f (l₁.getD i [], l₂.getD i []) := by
  intro l₁
  induction l₁ with
  | nil => intro l₂ i h _; simp at h
  | cons a t ih =>
    intro l₂ i h1 h2
    cases l₂ with
    | nil => simp at h2
    | cons b u =>
      cases i with
      | zero => simp
      | succ j =>
        simp only [List.zip_cons_cons, List.map_cons, List.getD_cons_succ]
        exact ih u j (by simpa using h1) (by simpa using h2)

theorem addOverlap_zip (c : Str) (rest : List Str) (o : Nat) :
    addOverlapToChunks (c :: rest) o =
      c :: ((c :: rest).zip rest).map (fun pr => lastN o pr.1 ++ nl2 ++ pr.2) := by
  have hlen : (addOverlapToChunks (c :: rest) o).length = rest.length + 1 := by
    unfold addOverlapToChunks
    rw [mapWithIndex_length]
    rfl
  apply ext_getD
  · rw [hlen]
    simp [List.length_zip]
  · intro i hi
    rw [hlen] at hi
    unfold addOverlapToChunks
    rw [mapWithIndex_getD _ _ 0 i (by simpa using hi)]
    cases i with
    | zero => simp
    | succ j =>
      rw [if_neg (by omega)]
      have h2 : (c :: ((c :: rest).zip rest).map
            (fun pr => lastN o pr.1 ++ nl2 ++ pr.2)).getD (j + 1) ([] : Str) =
          (((c :: rest).zip rest).map (fun pr => lastN o pr.1 ++ nl2 ++ pr.2)).getD j [] := by
        simp
      rw [h2, zip_map_getD (fun pr => lastN o pr.1 ++ nl2 ++ pr.2) (c :: rest) rest j
        (by simp only [List.length_cons]; omega) (by omega)]
      have h1 : 0 + (j + 1) - 1 = j := by omega
      rw [h1]
      simp

/-- C4: with `overlapSize = o > 0` and at least two pre-overlap chunks,
`chunkText` returns the first pre-overlap chunk unmodified and every
later chunk prefixed by exactly the trailing characters of the
immediately preceding pre-overlap chunk (the last `min o len` characters,
`lastN`, a suffix) joined by the blank-line separator; the zip pairs
consecutive elements of the pre-overlap list `chunkCore`, so overlap is
always taken from original non-overlapped text and never compounds. -/
theorem c4_overlap_policy :
    ∀ (text : Str) (chunkSize overlapSize : Nat) (c : Str) (rest : List Str),
      0 < overlapSize → chunkCore text chunkSize = c :: rest → rest ≠ [] →
      (chunkText text chunkSize overlapSize =
        c :: ((c :: rest).zip rest).map
          (fun pr => lastN overlapSize pr.1 ++ nl2 ++ pr.2)) ∧
      (∀ s : Str, (lastN overlapSize s).length = min overlapSize s.length ∧
        lastN overlapSize s <:+ s) := by
  intro text cs o c rest ho hcore hrest
  constructor
  · have hr : 0 < rest.length := List.length_pos.mpr hrest
    simp only [chunkText]
    rw [hcore]
    rw [if_pos ⟨ho, by simp only [List.length_cons]; omega⟩]
    exact addOverlap_zip c rest o
  · intro s
    refine ⟨?_, ?_⟩
    · simp only [lastN, List.length_drop]
      omega
    · exact ⟨s.take (s.length - o), List.take_append_drop _ _⟩

/-- C4 witness: `"aa\n\nbb"` at `chunkSize = 2` has pre-overlap chunks
`["aa", "bb"]`; with `overlapSize = 1` the second returned chunk is
`"a" ++ "\n\n" ++ "bb"`. -/
theorem c4_overlap_policy_witness :
    0 < 1 ∧ chunkCore "aa\n\nbb".data 2 = "aa".data :: ["bb".data] ∧
      (["bb".data] : List Str) ≠ [] ∧
      chunkText "aa\n\nbb".data 2 1 =
        "aa".data :: (("aa".data :: ["bb".data]).zip ["bb".data]).map
          (fun pr => lastN 1 pr.1 ++ nl2 ++ pr.2) ∧
      (lastN 1 "aa".data).length = min 1 ("aa".data : Str).length :=
  ⟨by decide, by decide, by simp,
    (c4_overlap_policy "aa\n\nbb".data 2 1 "aa".data ["bb".data] (by decide) (by decide)
      (by simp)).1,
    ((c4_overlap_policy "aa\n\nbb".data 2 1 "aa".data ["bb".data] (by decide) (by decide)
      (by simp)).2 "aa".data).1⟩

theorem glue_nil_left (b : Str) : glue [] b = b := rfl

theorem glue_nil_right (a : Str) : glue a [] = a := by
  unfold glue
  by_cases h : a.isEmpty
  · rw [if_pos h]
    exact ((isEmpty_eq_nil a).mp h).symm
  · rw [if_neg h]
    simp

theorem glue_of_ne (a b : Str) (ha : a ≠ []) (hb : b ≠ []) : glue a b = a ++ nl2 ++ b := by
  unfold glue
  rw [if_neg (by simpa [isEmpty_eq_nil] using ha), if_neg (by simpa [isEmpty_eq_nil] using hb)]

theorem glue_assoc (a b c : Str) : glue (glue a b) c = glue a (glue b c) := by
  by_cases ha : a = []
  · subst ha
    rw [glue_nil_left, glue_nil_left]
  · by_cases hb : b = []
    · subst hb
      rw [glue_nil_right, glue_nil_left]
    · by_cases hc : c = []
      · subst hc
        rw [glue_nil_right, glue_nil_right]
      · rw [glue_of_ne a b ha hb, glue_of_ne b c hb hc,
          glue_of_ne (a ++ nl2 ++ b) c (by simp [ha]) hc,
          glue_of_ne a (b ++ nl2 ++ c) ha (by simp [hb])]
        simp [List.append_assoc]

theorem glueAll_append_one (l : List Str) (x : Str) :
    glueAll (l ++ [x]) = glue (glueAll l) x := by
  unfold glueAll
  rw [List.foldl_append]
  rfl

theorem glueAll_flush (chunks : List Str) (cur : Str) (hfix : trim cur = cur) :
    glueAll (if (trim cur).isEmpty then chunks else chunks ++ [trim cur]) =
      glue (glueAll chunks) cur := by
  rw [hfix]
  by_cases h : cur.isEmpty
  · rw [if_pos h]
    have hnil : cur = [] := (isEmpty_eq_nil cur).mp h
    rw [hnil, glue_nil_right]
  · rw [if_neg h, glueAll_append_one]

theorem paraLoop_glue (cs : Nat) :
    ∀ (paras : List Str) (chunks : List Str) (cur : Str),
      (∀ p ∈ paras, (trim p).length ≤ cs ∧ trim p ≠ []) →
      trim cur = cur →
      glueAll (if (trim (paraLoop cs paras (chunks, cur)).2).isEmpty
          then (paraLoop cs paras (chunks, cur)).1
          else (paraLoop cs paras (chunks, cur)).1
            ++ [trim (paraLoop cs paras (chunks, cur)).2]) =
        List.foldl glue (glue (glueAll chunks) cur) (paras.map trim) := by
  intro paras
  induction paras with
  | nil =>
    intro chunks cur _ hfix
    exact glueAll_flush chunks cur hfix
  | cons p rest ih =>
    intro chunks cur hfitall hfix
    have hp := hfitall p (by simp)
    have hrest : ∀ x ∈ rest, (trim x).length ≤ cs ∧ trim x ≠ [] :=
      fun x hx => hfitall x (by simp [hx])
    rw [paraLoop_cons]
    by_cases hcase : (cur ++ nl2 ++ trim p).length ≤ cs
    · rw [if_pos hcase]
      have hglue : (if cur.isEmpty then trim p else cur ++ nl2 ++ trim p) =
          glue cur (trim p) := by
        unfold glue
        by_cases hemp : cur.isEmpty
        · rw [if_pos hemp, if_pos hemp]
        · rw [if_neg hemp, if_neg hemp,
            if_neg (by simpa [isEmpty_eq_nil] using hp.2)]
      rw [hglue]
      have hfix2 : trim (glue cur (trim p)) = glue cur (trim p) := by
        by_cases hemp : cur = []
        · subst hemp
          rw [glue_nil_left]
          exact trim_idem p
        · rw [glue_of_ne cur (trim p) hemp hp.2]
          exact trim_append_fixed cur nl2 (trim p) hfix hemp (trim_idem p) hp.2
      rw [ih chunks (glue cur (trim p)) hrest hfix2]
      show List.foldl glue (glue (glueAll chunks) (glue cur (trim p))) (rest.map trim) = _
      rw [← glue_assoc]
      rfl
    · rw [if_neg hcase, if_neg (show ¬ cs < (trim p).length by omega)]
      rw [ih (if (trim cur).isEmpty then chunks else chunks ++ [trim cur]) (trim p)
        hrest (trim_idem p)]
      rw [glueAll_flush chunks cur hfix]
      rfl

theorem splitParasFuel_succ_cons (n : Nat) (acc : Str) (x : Char) (xs : Str) :
    splitParasFuel (n + 1) acc (x :: xs) =
      if x = '\n' then
        match lastNl xs with
        | some j => acc.reverse :: splitParasFuel n [] (xs.drop (j + 1))
        | none => splitParasFuel n (x :: acc) xs
      else splitParasFuel n (x :: acc) xs :=
  rfl

theorem splitParasFuel_chars :
    ∀ (fuel : Nat) (acc s piece : Str), piece ∈ splitParasFuel fuel acc s →
      ∀ c ∈ piece, c ∈ acc ∨ c ∈ s := by
  intro fuel
  induction fuel with
  | zero =>
    intro acc s piece hp c hc
    have hpe : piece = acc.reverse := by simpa [splitParasFuel] using hp
    subst hpe
    exact Or.inl (by simpa using hc)
  | succ n ih =>
    intro acc s piece hp c hc
    cases s with
    | nil =>
      have hpe : piece = acc.reverse := by simpa [splitParasFuel] using hp
      subst hpe
      exact Or.inl (by simpa using hc)
    | cons x xs =>
      rw [splitParasFuel_succ_cons] at hp
      by_cases hx : x = '\n'
      · rw [if_pos hx] at hp
        cases hj : lastNl xs with
        | some j =>
          rw [hj] at hp
          rcases List.mem_cons.mp hp with hpe | hp2
          · subst hpe
            exact Or.inl (by simpa using hc)
          · rcases ih [] (xs.drop (j + 1)) piece hp2 c hc with h | h
            · simp at h
            · exact Or.inr (List.mem_cons_of_mem x (List.drop_subset _ _ h))
        | none =>
          rw [hj] at hp
          rcases ih (x :: acc) xs piece hp c hc with h | h
          · rcases List.mem_cons.mp h with rfl | h2
            · exact Or.inr (by simp)
            · exact Or.inl h2
          · exact Or.inr (List.mem_cons_of_mem x h)
      · rw [if_neg hx] at hp
        rcases ih (x :: acc) xs piece hp c hc with h | h
        · rcases List.mem_cons.mp h with rfl | h2
          · exact Or.inr (by simp)
          · exact Or.inl h2
        · exact Or.inr (List.mem_cons_of_mem x h)

theorem rawParagraphs_nil_of_allWS (text : Str) (h : ∀ c ∈ text, isWS c = true) :
    rawParagraphs text = [] := by
  apply List.eq_nil_iff_forall_not_mem.mpr
  intro p hp
  rcases List.mem_filter.mp hp with ⟨hmem, hpred⟩
  have hall : ∀ c ∈ p, isWS c = true := by
    intro c hc
    rcases splitParasFuel_chars text.length [] text p hmem c hc with h1 | h1
    · simp at h1
    · exact h c h1
  rw [allWS_trim_nil p hall] at hpred
  simp at hpred

/-- C3 counterexample: for `text = "..abcde."`, `chunkSize = 5`,
`overlapSize = 0`, the chunks are `["abcde.", "e."]`: their concatenation
differs from the trimmed-paragraph concatenation even after removing all
whitespace (every join separator the segmenter inserts is whitespace),
and the period count shows characters are both dropped (the two leading
periods) and duplicated (the trailing `"e."` appears twice) by the
sentence-split path. -/
theorem c3_reassembly_counterexample :
    removeWS ((chunkText "..abcde.".data 5 0).flatten) ≠
        removeWS ((paragraphsOf "..abcde.".data).flatten) ∧
      ((chunkText "..abcde.".data 5 0).flatten).count '.' = 2 ∧
      ((paragraphsOf "..abcde.".data).flatten).count '.' = 3 := by
  refine ⟨?_, by decide, by decide⟩
  decide

/-- C3 amended: when no trimmed paragraph exceeds `chunkSize` (so the
sentence-split path is never taken), joining the pre-overlap chunks with
the blank-line separator reproduces exactly the text's trimmed paragraphs
joined with the blank-line separator — no text is dropped or duplicated.
(When a paragraph does exceed `chunkSize`, `splitIntoSentences` can drop
a leading terminator run and re-emit part of the matched text, as the
counterexample shows, so the claim fails in general.) -/
theorem c3_reassembly_amended :
    ∀ (text : Str) (chunkSize : Nat), 0 < chunkSize →
      (∀ p ∈ paragraphsOf text, p.length ≤ chunkSize) →
      glueAll (chunkCore text chunkSize) = glueAll (paragraphsOf text) := by
  intro text cs _ hfit
  rw [chunkCore_eq]
  by_cases hguard : (trim text).isEmpty
  · rw [if_pos hguard]
    have hws : ∀ c ∈ text, isWS c = true :=
      trim_nil_allWS text ((isEmpty_eq_nil _).mp hguard)
    have hparas : paragraphsOf text = [] := by
      unfold paragraphsOf
      rw [rawParagraphs_nil_of_allWS text hws]
      rfl
    rw [hparas]
  · rw [if_neg hguard]
    have h := paraLoop_glue cs (rawParagraphs text) [] []
      (fun p hp =>
        ⟨hfit (trim p) (List.mem_map_of_mem trim hp), by
          rcases List.mem_filter.mp hp with ⟨_, hpred⟩
          simpa [isEmpty_eq_false_ne_nil] using hpred⟩)
      rfl
    rw [h]
    rfl

/-- C3 amended witness: `"ab\n\ncd"` at `chunkSize = 2` has paragraphs
`["ab", "cd"]`, each within the bound, and the glued chunks equal the
glued paragraphs. -/
theorem c3_reassembly_amended_witness :
    0 < 2 ∧ (∀ p ∈ paragraphsOf "ab\n\ncd".data, p.length ≤ 2) ∧
      glueAll (chunkCore "ab\n\ncd".data 2) = glueAll (paragraphsOf "ab\n\ncd".data) :=
  ⟨by decide, by decide,
    c3_reassembly_amended "ab\n\ncd".data 2 (by decide) (by decide)⟩

theorem mkSource_eq_specSource (d : SearchResult) : mkSource d = specSource d := by
  unfold mkSource specSource
  rcases Nat.lt_or_ge 150 d.text.length with h | h
  · rw [if_pos h, if_neg (show ¬ d.text.length ≤ 150 by omega)]
  · rw [if_neg (show ¬ 150 < d.text.length by omega),
      if_pos (show d.text.length ≤ 150 by omega)]

theorem jsOrElse_specAnswer (o : Option Str) : jsOrElse o errorAnswer = specAnswer o := by
  cases o with
  | none => rfl
  | some s =>
    cases s with
    | nil => rfl
    | cons c cs => simp [jsOrElse, specAnswer]

/-- C8: on the successful path (retrieval returned at least one result),
the packaged `RAGResponse` carries the model's text output or the fixed
fallback string when the service returns no content (absent or empty);
a sources list mirroring the retrieval results in the same order, each
preview equal to the chunk text when at most 150 characters and otherwise
its first 150 characters followed by the truncation marker
(`specSource`); the elapsed time in milliseconds (a `Nat`, hence
non-negative); and the token usage exactly as the service reports it —
and the language-model call site is reached. -/
theorem c8_success_packaging :
    ∀ (question : Str) (r : SearchResult) (rest : List SearchResult)
      (llm : Str → Str → LLMResponse) (elapsed : Nat),
      generateRAGAnswer question (r :: rest) llm elapsed =
        ({ answer := specAnswer
              (llm systemPrompt
                (userPromptOf (assembleContext (r :: rest)) question)).content,
           sources := (r :: rest).map specSource,
           responseTime := elapsed,
           tokensUsed := (llm systemPrompt
              (userPromptOf (assembleContext (r :: rest)) question)).totalTokens },
          true) := by
  intro question r rest llm elapsed
  unfold generateRAGAnswer
  rw [show (r :: rest).isEmpty = false from rfl]
  have h1 : mkSource = specSource := funext mkSource_eq_specSource
  simp [h1, jsOrElse_specAnswer]
